import Mathlib

/-!
Verification development for the `vfs` package (aahframework.org/vfs): a
read-only virtual filesystem overlay.  The mount dispatch logic is embedded
from `mount.go`, the Binary compiler from the generator source; the node
tree, tree resolver and file-handle internals (`node.go` / `file.go`) are not
part of the provided sources and are modelled from the specification where
so marked.  The physical OS filesystem (package `os` / `ioutil`) is an
external collaborator and is modelled as a finite path-indexed store with
the documented error behaviour of the Go primitives.
-/

namespace Vfs

/-! ## Path helpers (Go `path` / `strings` semantics, slash-separated) -/

/-- Split a character list on a separator character.  Mirrors the behaviour
of Go `strings.Split` for a one-character separator: `"a/b"` gives
`["a", "b"]`, `"/a"` gives `["", "a"]`. -/
def splitOnChar (c : Char) : List Char → List (List Char)
  | [] => [[]]
  | x :: xs =>
    match splitOnChar c xs with
    | [] => [[]]
    | r :: rs => if x = c then [] :: r :: rs else (x :: r) :: rs

/-- True when the string begins with a slash (`path.IsAbs`). -/
def isRooted (s : String) : Bool :=
  match s.toList with
  | c :: _ => c = '/'
  | [] => false

/-- Stack-based processing of the path segments for `path.Clean`:
empty and `.` segments are dropped, `..` pops a previous segment, a
leading `..` is dropped on rooted paths and kept otherwise. -/
def cleanSegsAux (rooted : Bool) : List String → List String → List String
  | acc, [] => acc.reverse
  | acc, s :: rest =>
    if s = "" ∨ s = "." then cleanSegsAux rooted acc rest
    else if s = ".." then
      match acc with
      | [] => if rooted then cleanSegsAux rooted [] rest
              else cleanSegsAux rooted [".."] rest
      | a :: as =>
        if a = ".." then cleanSegsAux rooted (".." :: a :: as) rest
        else cleanSegsAux rooted as rest
    else cleanSegsAux rooted (s :: acc) rest

/-- Join segments with slashes. -/
def joinSegs : List String → String
  | [] => ""
  | [x] => x
  | x :: y :: xs => x ++ "/" ++ joinSegs (y :: xs)

/-- Go `path.Clean`: lexical simplification of a slash-separated path
(collapse repeated slashes, eliminate `.` and `..`, empty result becomes
`.`, rooted empty result becomes `/`). -/
def pathClean (p : String) : String :=
  if p = "" then "."
  else
    let rooted := isRooted p
    let cs := cleanSegsAux rooted [] ((splitOnChar '/' p.toList).map (fun l => String.mk l))
    if rooted then
      if cs = [] then "/" else "/" ++ joinSegs cs
    else
      if cs = [] then "." else joinSegs cs

/-- Go `path.Dir`: everything up to and including the final slash, cleaned;
`.` when the path holds no slash. -/
def pathDir (p : String) : String :=
  pathClean (String.mk ((p.toList.reverse.dropWhile (fun c => c ≠ '/')).reverse))

/-- Last slash-separated segment of a path; used for the name of a newly
inserted node ("name: last path segment" in the data model). -/
def baseName (p : String) : String :=
  String.mk (p.toList.reverse.takeWhile (fun c => c ≠ '/')).reverse

/-- Character-level prefix removal; `some rest` when the first list is a
prefix of the second. -/
def dropPre : List Char → List Char → Option (List Char)
  | [], s => some s
  | _ :: _, [] => none
  | p :: ps, c :: cs => if p = c then dropPre ps cs else none

/-- Go `strings.TrimPrefix`: the string without the given leading prefix,
unchanged when the prefix does not match. -/
def trimPfx (s pre : String) : String :=
  match dropPre pre.toList s.toList with
  | some rest => String.mk rest
  | none => s

/-- Drop the first `n` characters of a string.  Models the Go byte-slicing
`name[len(vroot):]` of `Mount.namePhysical` (identical for ASCII paths;
Go slices bytes and panics when the string is shorter, this model yields
the empty string then). -/
def dropStrN (s : String) (n : Nat) : String :=
  String.mk (s.toList.drop n)

/-- Go `filepath.Join` on two elements (empty elements are skipped, the
joined result is cleaned, all-empty input stays empty). -/
def joinPath2 (a b : String) : String :=
  if a = "" then (if b = "" then "" else pathClean b)
  else if b = "" then pathClean a
  else pathClean (a ++ "/" ++ b)

/-- Segments of a (virtual-root-stripped) path, empty segments dropped.
Modelled from the spec: the tree resolver splits the stripped path into
segments and descends the children mapping segment by segment. -/
def segsOf (s : String) : List String :=
  ((splitOnChar '/' s.toList).map (fun l => String.mk l)).filter (fun x => x ≠ "")

/-! ## Errors (Go `error` values as observed through this package) -/

/-- Go error values reaching the callers of this package: a not-exist
`*os.PathError` (recognised by `os.IsNotExist`), any other `*os.PathError`
with its operation, path and message, and `os.ErrInvalid`. -/
inductive OSErr where
  | notExist (op : String) (path : String)
  | pathError (op : String) (path : String) (msg : String)
  | invalid
deriving DecidableEq, Repr

/-- Go `os.IsNotExist` on the modelled error values. -/
def isNotExist : OSErr → Bool
  | .notExist _ _ => true
  | _ => false

/-- Decidable equality of Go results, for concrete evaluation. -/
instance {e a : Type} [DecidableEq e] [DecidableEq a] : DecidableEq (Except e a) := fun x y =>
  match x, y with
  | .ok u, .ok v =>
    if h : u = v then isTrue (congrArg Except.ok h)
    else isFalse (fun hc => h (by injection hc))
  | .error u, .error v =>
    if h : u = v then isTrue (congrArg Except.error h)
    else isFalse (fun hc => h (by injection hc))
  | .ok _, .error _ => isFalse (fun hc => Except.noConfusion hc)
  | .error _, .ok _ => isFalse (fun hc => Except.noConfusion hc)

/-! ## The node tree

Modelled from the spec: `node.go` is not among the provided sources.  Per
the data model a node carries a name (last path segment), a directory
flag, a size, an optional byte payload (files only) and an
insertion-ordered mapping from name to child node (directories only). -/

/-- The `os.FileInfo` view of an entry: name, directory flag, byte size.
Modification time is omitted (no claim concerns it). -/
structure NodeInfo where
  name : String
  dir : Bool
  size : Nat
deriving DecidableEq, Repr

/-- A tree entry.  Modelled from the spec: metadata, optional payload and
the insertion-ordered child list. -/
inductive Node where
  | node (info : NodeInfo) (data : List Nat) (childs : List Node)

/-- Metadata of a node. -/
def Node.info : Node → NodeInfo
  | .node i _ _ => i

/-- Payload bytes of a node (empty for directories). -/
def Node.data : Node → List Nat
  | .node _ d _ => d

/-- Children of a node in insertion order. -/
def Node.childs : Node → List Node
  | .node _ _ c => c

/-- Name of a node (last segment of its virtual path). -/
def Node.name (n : Node) : String := n.info.name

/-- The stored `os.FileInfo` list for the children of a directory, in
insertion order.  Modelled from the spec: listing data is derived from the
children mapping; name ordering is imposed at read time, not here. -/
def Node.childInfos (n : Node) : List NodeInfo :=
  n.childs.map Node.info

/-- Insert a child into a child list: a child of the same name is replaced
in place, otherwise the new child is appended.  Modelled from the spec:
`children` is an ordered-by-insertion mapping from name to child, so a
name occurs at most once. -/
def addChildList : List Node → Node → List Node
  | [], c => [c]
  | x :: xs, c => if x.name = c.name then c :: xs else x :: addChildList xs c

/-- Go `node.addChild`: insert a child node under a directory node.
Modelled from the spec. -/
def Node.addChild (n : Node) (c : Node) : Node :=
  .node n.info n.data (addChildList n.childs c)

/-- Lookup in the children mapping by name (the Go map access
`n.childs[name]`). -/
def lookupChild : List Node → String → Option Node
  | [], _ => none
  | c :: cs, s => if c.name = s then some c else lookupChild cs s

/-- Replace the first child carrying the given name by the given node;
unchanged when no child carries the name. -/
def replaceChild : List Node → String → Node → List Node
  | [], _, _ => []
  | x :: xs, s, n => if x.name = s then n :: xs else x :: replaceChild xs s n

/-- Go `node.find` over the segments of a stripped path: descend the children
mapping segment by segment, a missing segment at any depth is NotFound.
Modelled from the spec (section Tree Resolver). -/
def Node.findSegs : Node → List String → Except OSErr Node
  | n, [] => .ok n
  | n, s :: rest =>
    match lookupChild n.childs s with
    | none => .error (.notExist "open" s)
    | some c => c.findSegs rest

/-- Go `node.findNode` over the segments of the parent directory path of a
path being inserted.  Modelled from the spec: the population-time variant
validates the chain of ancestors strictly (a missing intermediate segment
is an insertion error) while the final segment is looked up leniently (a
missing final segment — the deliberately filtered parent — yields a nil
node and no error). -/
def Node.findNodeSegs : Node → List String → Except OSErr (Option Node)
  | n, [] => .ok (some n)
  | n, s :: rest =>
    match lookupChild n.childs s, rest with
    | c?, [] => .ok c?
    | none, _ :: _ => .error (.pathError "find" s "no such parent directory")
    | some c, _ :: _ => c.findNodeSegs rest

/-- Rebuild the tree with a new child attached under the node addressed by
the given segments (the pure-data counterpart of the in-place
`n.addChild` performed by Go on the node returned by `findNode`); the
tree is unchanged when the addressed node is absent. -/
def Node.insertAtSegs : Node → List String → Node → Node
  | n, [], c => n.addChild c
  | n, s :: rest, c =>
    match lookupChild n.childs s with
    | none => n
    | some q => .node n.info n.data (replaceChild n.childs s (q.insertAtSegs rest c))

/-- Go `newNode(mountPath, fi)`: a fresh childless node named after the last
segment of its mount path, carrying the metadata of the given file info.
Modelled from the spec. -/
def newNode (mountPath : String) (fi : NodeInfo) (data : List Nat) : Node :=
  .node { name := baseName mountPath, dir := fi.dir, size := fi.size } data []

/-! ## Sorting directory listings by name

`byName` and its use by `sort.Sort` live in `node.go`; modelled from the
spec: ReadDir returns the children sorted by name. -/

/-- Lexicographic character-list comparison (at most): the Go `<` on
strings used by the `byName` comparator, weakened to at-most so equal
names compare true. -/
def leChars : List Char → List Char → Bool
  | [], _ => true
  | _ :: _, [] => false
  | a :: as, b :: bs =>
    if a < b then true
    else if b < a then false
    else leChars as bs

/-- Name comparison of two entries. -/
def leName (a b : NodeInfo) : Bool :=
  leChars a.name.toList b.name.toList

/-- Insert an info into a name-sorted list. -/
def insertByName (x : NodeInfo) : List NodeInfo → List NodeInfo
  | [] => [x]
  | y :: ys => if leName x y then x :: y :: ys else y :: insertByName x ys

/-- Sort a listing by entry name (insertion sort). -/
def sortByName : List NodeInfo → List NodeInfo
  | [] => []
  | x :: xs => insertByName x (sortByName xs)

/-! ## The physical filesystem (external collaborator)

Package `os` / `ioutil` are external to the repository; they are modelled
as a finite store of path-indexed entries with the documented behaviour
of the Go read-only primitives, including the operation labels carried by
their `*os.PathError` results. -/

/-- A physical disk: a finite association of absolute paths to entries
(metadata plus content bytes; directories carry no content). -/
structure PhysFS where
  entries : List (String × NodeInfo × List Nat)

/-- Look a path up on disk. -/
def PhysFS.lookup (fs : PhysFS) (p : String) : Option (NodeInfo × List Nat) :=
  (fs.entries.find? (fun e => e.1 = p)).map (fun e => e.2)

/-- The entries directly inside a directory path, in store order. -/
def PhysFS.childInfos (fs : PhysFS) (p : String) : List NodeInfo :=
  (fs.entries.filter (fun e => e.1 = p ++ "/" ++ e.2.1.name)).map (fun e => e.2.1)

/-- An open handle onto a physical entry (`*os.File`). -/
structure PhysFile where
  path : String
  info : NodeInfo
  data : List Nat
deriving DecidableEq, Repr

/-- Go `os.Lstat` (the model has no symbolic links): metadata, or a not-exist
error labelled with the `lstat` operation. -/
def osLstat (fs : PhysFS) (p : String) : Except OSErr NodeInfo :=
  match fs.lookup p with
  | none => .error (.notExist "lstat" p)
  | some (i, _) => .ok i

/-- Go `os.Stat`: metadata, or a not-exist error labelled with the `stat`
operation. -/
def osStat (fs : PhysFS) (p : String) : Except OSErr NodeInfo :=
  match fs.lookup p with
  | none => .error (.notExist "stat" p)
  | some (i, _) => .ok i

/-- Go `os.Open`: an open handle, or a not-exist error labelled with the
`open` operation. -/
def osOpen (fs : PhysFS) (p : String) : Except OSErr PhysFile :=
  match fs.lookup p with
  | none => .error (.notExist "open" p)
  | some (i, d) => .ok ⟨p, i, d⟩

/-- Go `ioutil.ReadDir`: the entries of a physical directory sorted by name;
opening a missing path is a not-exist error, reading the entries of a
non-directory fails with the readdirent not-a-directory error of the OS. -/
def ioutilReadDir (fs : PhysFS) (p : String) : Except OSErr (List NodeInfo) :=
  match fs.lookup p with
  | none => .error (.notExist "open" p)
  | some (i, _) =>
    if i.dir then .ok (sortByName (fs.childInfos p))
    else .error (.pathError "readdirent" p "not a directory")

/-- Go `ioutil.ReadFile`: the content bytes of a physical file; opening a
missing path is a not-exist error, reading a directory fails with the
is-a-directory read error of the OS. -/
def ioutilReadFile (fs : PhysFS) (p : String) : Except OSErr (List Nat) :=
  match fs.lookup p with
  | none => .error (.notExist "open" p)
  | some (i, d) =>
    if i.dir then .error (.pathError "read" p "is a directory")
    else .ok d

/-! ## Mount (embedded from `mount.go`) -/

/-- Go `vfs.Mount`: one physical directory mounted at one virtual directory.
The tree pointer may be nil (`tree *node`), hence the `Option`. -/
structure Mount where
  vroot : String
  proot : String
  tree : Option Node

/-- A `vfs.File` as handed out by `Mount.Open`: a view over a tree node or
over an open physical file. -/
inductive VFile where
  | virt (n : Node)
  | phys (f : PhysFile)

/-- Go `File.Stat` on an open handle (stat of an already-open handle does not
fail in the model). -/
def VFile.stat : VFile → NodeInfo
  | .virt n => n.info
  | .phys f => f.info

/-- Go `ioutil.ReadAll` on an open handle: a virtual node yields its stored
payload, a physical regular file its content, a physical directory the
is-a-directory read error. -/
def VFile.readAll : VFile → Except OSErr (List Nat)
  | .virt n => .ok n.data
  | .phys f =>
    if f.info.dir then .error (.pathError "read" f.path "is a directory")
    else .ok f.data

/-- Go `Mount.cleanDir`: strip the virtual-root prefix and take the parent
directory of what remains. -/
def Mount.cleanDir (m : Mount) (p : String) : String :=
  pathDir (trimPfx p m.vroot)

/-- Go `Mount.namePhysical`: map a virtual name onto the physical root by
replacing the virtual-root prefix (by character count) with the physical
root, joined and cleaned. -/
def Mount.namePhysical (m : Mount) (name : String) : String :=
  pathClean (joinPath2 m.proot (dropStrN name m.vroot.toList.length))

/-- Go `Mount.open` (unexported): `os.ErrInvalid` on a nil tree; otherwise
clean the name, answer the root node on an exact virtual-root match, and
otherwise resolve the stripped name in the tree. -/
def Mount.mOpen (m : Mount) (name : String) : Except OSErr Node :=
  match m.tree with
  | none => .error .invalid
  | some t =>
    let name := pathClean name
    if m.vroot = name then .ok t
    else t.findSegs (segsOf (trimPfx name m.vroot))

/-- Go `Mount.openPhysical`: probe the mapped physical path with `os.Lstat`
and return that not-exist error as is when the probe fails; otherwise
open the physical path. -/
def Mount.openPhysical (m : Mount) (fs : PhysFS) (name : String) : Except OSErr VFile :=
  let pname := m.namePhysical name
  match osLstat fs pname with
  | .error e =>
    if isNotExist e then .error e
    else (osOpen fs pname).map VFile.phys
  | .ok _ => (osOpen fs pname).map VFile.phys

/-- Go `Mount.Open`: tree lookup first; only a not-exist lookup result falls
back to the physical filesystem. -/
def Mount.Open (m : Mount) (fs : PhysFS) (name : String) : Except OSErr VFile :=
  match m.mOpen name with
  | .error e => if isNotExist e then m.openPhysical fs name else .error e
  | .ok n => .ok (.virt n)

/-- Go `Mount.Lstat`: tree lookup first; a not-exist result delegates to
`os.Lstat` on the mapped physical path. -/
def Mount.Lstat (m : Mount) (fs : PhysFS) (name : String) : Except OSErr NodeInfo :=
  match m.mOpen name with
  | .error e => if isNotExist e then osLstat fs (m.namePhysical name) else .error e
  | .ok n => .ok n.info

/-- Go `Mount.Stat`: tree lookup first; a not-exist result delegates to
`os.Stat` on the mapped physical path. -/
def Mount.Stat (m : Mount) (fs : PhysFS) (name : String) : Except OSErr NodeInfo :=
  match m.mOpen name with
  | .error e => if isNotExist e then osStat fs (m.namePhysical name) else .error e
  | .ok n => .ok n.info

/-- Go `Mount.ReadFile`: open (with physical fallback — the source retries
`openPhysical` when the `Open` result is still a not-exist error), stat
the handle, reject directories with the is-a-directory read error on the
virtual name, and read everything. -/
def Mount.ReadFile (m : Mount) (fs : PhysFS) (name : String) : Except OSErr (List Nat) :=
  let r := m.Open fs name
  let r := match r with
    | .error e => if isNotExist e then m.openPhysical fs name else .error e
    | .ok f => .ok f
  match r with
  | .error e => .error e
  | .ok f =>
    if (VFile.stat f).dir then .error (.pathError "read" name "is a directory")
    else f.readAll

/-- Go `Mount.ReadDir`: tree lookup first; a not-exist result defers entirely
to `ioutil.ReadDir` on the mapped physical path; a non-directory node is
the is-a-file read error; a directory node yields a sorted copy of its
stored child infos. -/
def Mount.ReadDir (m : Mount) (fs : PhysFS) (dirname : String) : Except OSErr (List NodeInfo) :=
  match m.mOpen dirname with
  | .error e =>
    if isNotExist e then ioutilReadDir fs (m.namePhysical dirname) else .error e
  | .ok n =>
    if ¬n.info.dir then .error (.pathError "read" dirname "is a file")
    else .ok (sortByName n.childInfos)

/-- Go `Mount.ReadDir` with explicit state passing, for the frame property:
the Go source copies the stored child-info slice
(`append([]os.FileInfo{}, f.node.childInfos...)`) and sorts the copy, so
the mount coming out of the call carries the tree it came in with; had the
stored slice been sorted in place, the second component would instead hold
the node with a reordered child list. -/
def Mount.ReadDirSt (m : Mount) (fs : PhysFS) (dirname : String) :
    Except OSErr (List NodeInfo) × Mount :=
  match m.mOpen dirname with
  | .error e =>
    if isNotExist e then (ioutilReadDir fs (m.namePhysical dirname), m) else (.error e, m)
  | .ok n =>
    if ¬n.info.dir then (.error (.pathError "read" dirname "is a file"), m)
    else
      let copy := n.childInfos
      (.ok (sortByName copy), m)

/-- Go `Mount.AddDir`: resolve the parent directory with the population-time
resolver; its error is returned as is, a nil parent is a silent no-op,
otherwise the new directory node is attached under the parent. -/
def Mount.AddDir (m : Mount) (mountPath : String) (fi : NodeInfo) : Except OSErr Mount :=
  match m.tree with
  | none => .error .invalid
  | some t =>
    match t.findNodeSegs (segsOf (m.cleanDir mountPath)) with
    | .error e => .error e
    | .ok none => .ok m
    | .ok (some _) =>
      .ok { m with tree := some (t.insertAtSegs (segsOf (m.cleanDir mountPath)) (newNode mountPath fi [])) }

/-- Go `Mount.AddFile`: resolve the parent directory with the population-time
resolver; its error is returned as is, otherwise the new file node with
its payload is attached under the parent.  The source guards only the
error case; `n.addChild` on the nil parent returned for a filtered
directory is modelled from the spec as a silent no-op. -/
def Mount.AddFile (m : Mount) (mountPath : String) (fi : NodeInfo) (data : List Nat) :
    Except OSErr Mount :=
  match m.tree with
  | none => .error .invalid
  | some t =>
    match t.findNodeSegs (segsOf (m.cleanDir mountPath)) with
    | .error e => .error e
    | .ok none => .ok m
    | .ok (some _) =>
      .ok { m with tree := some (t.insertAtSegs (segsOf (m.cleanDir mountPath)) (newNode mountPath fi data)) }

/-! ## Gzip detection -/

/-- The gzip member header bytes, RFC 1952 sections 2.3 and 2.3.1
(`var gzipMemberHeader = []byte("\x1F\x8B\x08")` in `mount.go`). -/
def gzipMemberHeader : List Nat := [0x1F, 0x8B, 0x08]

/-- The `Gziper` capability of a file handle.  Modelled from the spec:
`IsGzip` inspects the first three bytes of the payload against the fixed
gzip member header (the `file` implementation lives outside the provided
sources). -/
def IsGzip (data : List Nat) : Bool :=
  gzipMemberHeader.isPrefixOf data

/-! ## The Binary compiler (embedded from the generator source)

The external collaborators of `Binary` — exclusion rules
(`ess.Excludes`), template rendering, `os.Open`/`convertFile` on walked
files and the source formatter (`format.Source`) — are supplied as
oracles; the walk (`ess.Walk` with the compiler walk function inlined)
runs over an explicit snapshot of the physical tree.  Buffer writes are
collected as tagged chunks: a rendered template execution is recorded as
the statement it emits. -/

/-- One write into the generated-source buffer. -/
inductive Chunk where
  | preamble (mountPath : String)
  | text (s : String)
  | dirStmt (mountPath : String) (info : NodeInfo)
  | fileStmt (mountPath : String) (info : NodeInfo)
  | fileBytes (data : List Nat)
deriving DecidableEq, Repr

/-- The exclusion-rule collaborator (`ess.Excludes`): the outcome of its
one up-front `Validate()` and its per-basename `Match`. -/
structure Excludes where
  validateErr : Option OSErr
  isMatch : String → Bool

/-- Oracles for the external steps of `Binary`: template-execution
failures, `os.Open` failures and `convertFile` failures per path, and the
source formatter. -/
structure GenEnv where
  preambleErr : String → Option OSErr
  renderDirErr : String → NodeInfo → Option OSErr
  renderFileErr : String → NodeInfo → Option OSErr
  openErr : String → Option OSErr
  convertErr : String → Option OSErr
  fmtSource : List Chunk → Except OSErr (List Chunk)

/-- A snapshot of the walked physical tree: full path, metadata, content
bytes (files), children in walk order (directories). -/
inductive PTree where
  | mk (path : String) (info : NodeInfo) (data : List Nat) (children : List PTree)

/-- A file retained by the walk: its physical path, metadata and content. -/
abbrev FileEntry := String × NodeInfo × List Nat

/-- A directory retained by the walk: its mount path and metadata, in
emission order; `BinaryRaw` renders each such pair as one add-directory
statement. -/
abbrev DirEntry := String × NodeInfo

mutual

/-- The directory pass of `Binary`: `ess.Walk` with the compiler walk
function inlined.  A matched basename is skipped (and, for a directory,
not descended into); a retained directory other than the mount root emits
one add-directory statement (aborting on a template error) and is walked
depth-first; a retained file is deferred into the file list. -/
def walkP (mp pp : String) (sk : Excludes) (env : GenEnv) :
    PTree → Except OSErr (List DirEntry × List FileEntry)
  | .mk fpath info data cs =>
    if sk.isMatch (baseName fpath) then .ok ([], [])
    else if info.dir then
      let vp := joinPath2 mp (trimPfx fpath pp)
      let emitted : Except OSErr (List DirEntry) :=
        if vp = mp then .ok []
        else
          match env.renderDirErr vp info with
          | some e => .error e
          | none => .ok [(vp, info)]
      match emitted with
      | .error e => .error e
      | .ok cks =>
        match walkPList mp pp sk env cs with
        | .error e => .error e
        | .ok (cks2, fs2) => .ok (cks ++ cks2, fs2)
    else .ok ([], [(fpath, info, data)])

/-- Walk a list of sibling entries in order, aborting on the first error. -/
def walkPList (mp pp : String) (sk : Excludes) (env : GenEnv) :
    List PTree → Except OSErr (List DirEntry × List FileEntry)
  | [] => .ok ([], [])
  | c :: rest =>
    match walkP mp pp sk env c with
    | .error e => .error e
    | .ok (a, f) =>
      match walkPList mp pp sk env rest with
      | .error e => .error e
      | .ok (b, g) => .ok (a ++ b, f ++ g)

end

/-- The file pass of `Binary`: per retained file, open it (aborting on an
open error), emit one add-file statement (aborting on a template error),
emit the quoted byte literal via `convertFile` when the size is positive
(aborting on its error; zero-size files emit no byte literal) and close
the statement. -/
def emitFiles (mp pp : String) (env : GenEnv) :
    List FileEntry → Except OSErr (List Chunk)
  | [] => .ok []
  | (fname, info, data) :: rest =>
    match env.openErr fname with
    | some e => .error e
    | none =>
      let vp := joinPath2 mp (trimPfx fname pp)
      match env.renderFileErr vp info with
      | some e => .error e
      | none =>
        let bts : Except OSErr (List Chunk) :=
          if 0 < info.size then
            match env.convertErr fname with
            | some e => .error e
            | none => .ok [Chunk.fileBytes data]
          else .ok []
        match bts with
        | .error e => .error e
        | .ok bcks =>
          match emitFiles mp pp env rest with
          | .error e => .error e
          | .ok more =>
            .ok (Chunk.fileStmt vp info :: bcks ++ (Chunk.text "\x22))\n" :: more))

/-- Go `Binary` up to (excluding) the final `format.Source` call: validate
the exclusion rules first, render the preamble, run the directory pass,
then the file pass, and close the initialization block.  The source
iterates the deferred files in unspecified Go map order; the model keeps
walk-encounter order (the dirs-before-files layout does not depend on
it). -/
def BinaryRaw (env : GenEnv) (mountPath physicalPath : String) (sk : Excludes)
    (root : PTree) : Except OSErr (List Chunk) :=
  match sk.validateErr with
  | some e => .error e
  | none =>
    match env.preambleErr mountPath with
    | some e => .error e
    | none =>
      match walkP mountPath physicalPath sk env root with
      | .error e => .error e
      | .ok (dirs, files) =>
        match emitFiles mountPath physicalPath env files with
        | .error e => .error e
        | .ok fileChunks =>
          .ok ([Chunk.preamble mountPath, Chunk.text "\n// Adding directories into VFS"]
                ++ dirs.map (fun d => Chunk.dirStmt d.1 d.2)
                ++ (Chunk.text "\n// Adding files into VFS" :: fileChunks)
                ++ [Chunk.text "\x7d"])

/-- Go `Binary`: the raw generated buffer passed through the external source
formatter; a formatter failure aborts with its error and no output. -/
def Binary (env : GenEnv) (mountPath physicalPath : String) (sk : Excludes)
    (root : PTree) : Except OSErr (List Chunk) :=
  match BinaryRaw env mountPath physicalPath sk root with
  | .error e => .error e
  | .ok buf => env.fmtSource buf

/-- Is a chunk an add-directory statement? -/
def Chunk.isDirStmt : Chunk → Bool
  | .dirStmt _ _ => true
  | _ => false

/-- Is a chunk an add-file statement? -/
def Chunk.isFileStmt : Chunk → Bool
  | .fileStmt _ _ => true
  | _ => false

/-- Is a chunk an add statement at all? -/
def Chunk.isStmt (c : Chunk) : Bool :=
  c.isDirStmt || c.isFileStmt

/-! ## Dispatch-level relations -/

/-- Test that the unexported tree lookup of the mount fails with an error
recognised by `os.IsNotExist` — the fallback trigger shared by every
public Mount operation; this is what it means for a name to be absent
from the virtual tree of a populated mount. -/
def treeMiss (m : Mount) (name : String) : Bool :=
  match m.mOpen name with
  | .error e => isNotExist e
  | .ok _ => false

/-- Agreement of two Go error values up to the operation and path labels
recorded inside them: both not-exist, or path errors carrying the same
message, or both invalid. -/
def errAgree : OSErr → OSErr → Bool
  | .notExist _ _, .notExist _ _ => true
  | .pathError _ _ a, .pathError _ _ b => a = b
  | .invalid, .invalid => true
  | _, _ => false

/-- Agreement of two operation results: equal values, or errors that
agree up to their operation and path labels. -/
def resAgree {α : Type} : Except OSErr α → Except OSErr α → Prop
  | .ok a, .ok b => a = b
  | .error e, .error f => errAgree e f = true
  | _, _ => False

/-! ## Concrete instances used by the witnesses -/

/-- Metadata of the virtual root directory. -/
def infoRootV : NodeInfo := ⟨"/v", true, 0⟩

/-- An empty virtual root directory. -/
def rootEmpty : Node := .node infoRootV [] []

/-- A mount of `/p` at `/v` with an empty tree. -/
def mEmpty : Mount := ⟨"/v", "/p", some rootEmpty⟩

/-- An empty physical disk. -/
def fsEmpty : PhysFS := ⟨[]⟩

/-- Metadata of the file `z.txt`. -/
def infoZ : NodeInfo := ⟨"z.txt", false, 2⟩

/-- Metadata of the file `a.txt`. -/
def infoA : NodeInfo := ⟨"a.txt", false, 2⟩

/-- Metadata of the file `x.txt`. -/
def infoX : NodeInfo := ⟨"x.txt", false, 2⟩

/-- The mount `mEmpty` after `AddFile("/v/z.txt")` then
`AddFile("/v/a.txt")` — insertion order deliberately reverse
alphabetical. -/
def mZA : Mount :=
  ⟨"/v", "/p", some (.node infoRootV []
    [newNode "/v/z.txt" infoZ [9, 9], newNode "/v/a.txt" infoA [7, 7]])⟩

/-- The mount `mEmpty` after `AddFile("/v/x.txt")`. -/
def mX : Mount :=
  ⟨"/v", "/p", some (.node infoRootV [] [newNode "/v/x.txt" infoX [9, 8]])⟩

/-- A physical disk holding a directory `/p` with one extra file
`/p/b.txt` that exists only physically. -/
def fsPhysB : PhysFS :=
  ⟨[("/p", ⟨"p", true, 0⟩, []), ("/p/b.txt", ⟨"b.txt", false, 1⟩, [1])]⟩

/-- A physical disk holding one regular file `/p/f.txt`. -/
def fsPhysF : PhysFS := ⟨[("/p/f.txt", ⟨"f.txt", false, 2⟩, [1, 2])]⟩

/-- Oracles for a compile in which no external step fails and the
formatter is the identity. -/
def envOK : GenEnv :=
  ⟨fun _ => none, fun _ _ => none, fun _ _ => none,
   fun _ => none, fun _ => none, fun b => .ok b⟩

/-- An exclusion-rule set that validates and matches nothing. -/
def skNone : Excludes := ⟨none, fun _ => false⟩

/-- An exclusion-rule set whose validation fails. -/
def skBad : Excludes :=
  ⟨some (.pathError "validate" "" "invalid pattern"), fun _ => false⟩

/-- A physical tree for compilation: `/src` containing `/src/a/b.txt`
(two bytes) and the empty file `/src/c.txt`. -/
def ptreeW : PTree :=
  .mk "/src" ⟨"src", true, 0⟩ []
    [.mk "/src/a" ⟨"a", true, 0⟩ []
       [.mk "/src/a/b.txt" ⟨"b.txt", false, 2⟩ [104, 105] []],
     .mk "/src/c.txt" ⟨"c.txt", false, 0⟩ [] []]

/-- The raw buffer produced by compiling `ptreeW` with `envOK` and no
exclusions. -/
def rawW : List Chunk :=
  [.preamble "/app", .text "\n// Adding directories into VFS",
   .dirStmt "/app/a" ⟨"a", true, 0⟩,
   .text "\n// Adding files into VFS",
   .fileStmt "/app/a/b.txt" ⟨"b.txt", false, 2⟩,
   .fileBytes [104, 105], .text "\x22))\n",
   .fileStmt "/app/c.txt" ⟨"c.txt", false, 0⟩, .text "\x22))\n",
   .text "\x7d"]

/-! ## Helper lemmas -/

/-- A true at-most comparison refutes the reverse strict list order. -/
theorem not_lt_of_leChars : ∀ (la lb : List Char), leChars la lb = true → ¬ lb < la := by
  intro la
  induction la with
  | nil =>
    intro lb _ hc
    cases hc
  | cons a as ih =>
    intro lb h hc
    cases lb with
    | nil => simp [leChars] at h
    | cons b bs =>
      by_cases h1 : a < b
      · cases hc with
        | cons hlex => exact absurd h1 (lt_irrefl _)
        | rel hba => exact absurd h1 (lt_asymm hba)
      · by_cases h2 : b < a
        · simp [leChars, h1, h2] at h
        · have h3 : leChars as bs = true := by simpa [leChars, h1, h2] using h
          cases hc with
          | cons hlex => exact ih bs h3 hlex
          | rel hba => exact h2 hba

/-- The at-most comparison is total. -/
theorem leChars_total : ∀ (la lb : List Char), leChars la lb = false → leChars lb la = true := by
  intro la
  induction la with
  | nil =>
    intro lb h
    simp [leChars] at h
  | cons a as ih =>
    intro lb h
    cases lb with
    | nil => simp [leChars]
    | cons b bs =>
      by_cases h1 : a < b
      · simp [leChars, h1] at h
      · by_cases h2 : b < a
        · simp [leChars, h2]
        · have h3 : leChars as bs = false := by simpa [leChars, h1, h2] using h
          simpa [leChars, h1, h2] using ih bs h3

/-- A true name comparison is an inequality of the names. -/
theorem leName_le {a b : NodeInfo} (h : leName a b = true) : a.name ≤ b.name := by
  rw [String.le_iff_toList_le]
  exact not_lt.mp (not_lt_of_leChars _ _ h)

/-- Inserting into a listing is a permutation of consing. -/
theorem insertByName_perm (x : NodeInfo) (l : List NodeInfo) :
    (insertByName x l).Perm (x :: l) := by
  induction l with
  | nil => simp [insertByName]
  | cons y ys ih =>
    unfold insertByName
    cases h : leName x y
    · simp only [Bool.false_eq_true, if_false]
      exact (ih.cons y).trans (List.Perm.swap x y ys)
    · simp

/-- Sorting a listing permutes it. -/
theorem sortByName_perm (l : List NodeInfo) : (sortByName l).Perm l := by
  induction l with
  | nil => simp [sortByName]
  | cons x xs ih =>
    exact (insertByName_perm x (sortByName xs)).trans (ih.cons x)

/-- Members of an insertion result. -/
theorem mem_insertByName {b x : NodeInfo} {l : List NodeInfo}
    (hb : b ∈ insertByName x l) : b = x ∨ b ∈ l := by
  have := (insertByName_perm x l).mem_iff.mp hb
  simpa using this

/-- Inserting into a name-sorted listing keeps it sorted. -/
theorem insertByName_sorted (x : NodeInfo) (l : List NodeInfo)
    (h : l.Pairwise (fun a b => a.name ≤ b.name)) :
    (insertByName x l).Pairwise (fun a b => a.name ≤ b.name) := by
  induction l with
  | nil => simp [insertByName]
  | cons y ys ih =>
    rw [List.pairwise_cons] at h
    unfold insertByName
    cases hxy : leName x y
    · simp only [Bool.false_eq_true, if_false]
      rw [List.pairwise_cons]
      refine ⟨?_, ih h.2⟩
      intro b hb
      rcases mem_insertByName hb with hb | hb
      · subst hb
        exact leName_le (leChars_total _ _ hxy)
      · exact h.1 b hb
    · simp only [if_true]
      rw [List.pairwise_cons]
      refine ⟨?_, List.pairwise_cons.mpr h⟩
      intro b hb
      rcases List.mem_cons.mp hb with hb | hb
      · subst hb
        exact leName_le hxy
      · exact le_trans (leName_le hxy) (h.1 b hb)

/-- The result of `sortByName` is sorted by entry name. -/
theorem sortByName_sorted (l : List NodeInfo) :
    (sortByName l).Pairwise (fun a b => a.name ≤ b.name) := by
  induction l with
  | nil => simp [sortByName]
  | cons x xs ih => exact insertByName_sorted x (sortByName xs) ih

/-- Looking a child up right after inserting it finds exactly it. -/
theorem lookupChild_addChildList (l : List Node) (c : Node) :
    lookupChild (addChildList l c) c.name = some c := by
  induction l with
  | nil => simp [addChildList, lookupChild]
  | cons x xs ih =>
    unfold addChildList
    by_cases h : x.name = c.name
    · simp [lookupChild, h]
    · simp [lookupChild, h, ih]

/-- Replacing the child found under a name by a node carrying that name
makes the lookup answer the replacement. -/
theorem lookupChild_replaceChild {l : List Node} {s : String} {q : Node} (n : Node)
    (hn : n.name = s) (h : lookupChild l s = some q) :
    lookupChild (replaceChild l s n) s = some n := by
  induction l with
  | nil => simp [lookupChild] at h
  | cons x xs ih =>
    unfold lookupChild at h
    unfold replaceChild
    by_cases hx : x.name = s
    · simp [hx, lookupChild, hn]
    · simp only [hx, if_false] at h ⊢
      simp [lookupChild, hx, ih h]

/-- Path-addressed insertion does not change the metadata of the node it
rebuilds (only a child list underneath changes). -/
theorem insertAtSegs_info (t : Node) (ps : List String) (c : Node) :
    (t.insertAtSegs ps c).info = t.info := by
  cases ps with
  | nil => rfl
  | cons s rest =>
    cases h : lookupChild t.childs s <;> simp [Node.insertAtSegs, h, Node.info]

/-- A successful child lookup answers a node carrying the searched name. -/
theorem lookupChild_name {l : List Node} {s : String} {q : Node}
    (h : lookupChild l s = some q) : q.name = s := by
  induction l with
  | nil => simp [lookupChild] at h
  | cons x xs ih =>
    unfold lookupChild at h
    by_cases hx : x.name = s
    · simp only [hx, if_true, Option.some.injEq] at h
      rw [← h]
      exact hx
    · simp only [hx, if_false] at h
      exact ih h

/-- Finding a freshly attached child: the serving-time resolver, run on
the parent path extended by the name of the new node, answers exactly the
node that the insertion attached under the parent located by the
population-time resolver. -/
theorem findSegs_insertAtSegs (c : Node) :
    ∀ (ps : List String) (t q : Node),
      t.findNodeSegs ps = .ok (some q) →
      (t.insertAtSegs ps c).findSegs (ps ++ [c.name]) = .ok c := by
  intro ps
  induction ps with
  | nil =>
    intro t q _
    show (t.addChild c).findSegs [c.name] = .ok c
    unfold Node.findSegs
    have hc : (t.addChild c).childs = addChildList t.childs c := rfl
    rw [hc, lookupChild_addChildList]
    rfl
  | cons s rest ih =>
    intro t q h
    cases t with
    | node ti td tc =>
      cases hl : lookupChild tc s with
      | none =>
        cases rest with
        | nil => simp [Node.findNodeSegs, Node.childs, hl] at h
        | cons r rs => simp [Node.findNodeSegs, Node.childs, hl] at h
      | some ch =>
        have hname : ch.name = s := lookupChild_name hl
        cases rest with
        | nil =>
          have hq : ch = q := by
            simpa [Node.findNodeSegs, Node.childs, hl] using h
          subst hq
          have hi : (Node.node ti td tc).insertAtSegs [s] c
              = .node ti td (replaceChild tc s (ch.addChild c)) := by
            simp [Node.insertAtSegs, Node.childs, Node.info, Node.data, hl]
          rw [List.cons_append, List.nil_append, hi]
          have hrepl : lookupChild (replaceChild tc s (ch.addChild c)) s
              = some (ch.addChild c) :=
            lookupChild_replaceChild (ch.addChild c) hname hl
          unfold Node.findSegs
          simp only [Node.childs, hrepl]
          unfold Node.findSegs
          have hac : (ch.addChild c).childs = addChildList ch.childs c := rfl
          rw [hac, lookupChild_addChildList]
          rfl
        | cons r rs =>
          have hrec : ch.findNodeSegs (r :: rs) = .ok (some q) := by
            simpa [Node.findNodeSegs, Node.childs, hl] using h
          have hname2 : (ch.insertAtSegs (r :: rs) c).name = s := by
            show (ch.insertAtSegs (r :: rs) c).info.name = s
            rw [insertAtSegs_info]
            exact hname
          have hi : (Node.node ti td tc).insertAtSegs (s :: r :: rs) c
              = .node ti td (replaceChild tc s (ch.insertAtSegs (r :: rs) c)) := by
            simp [Node.insertAtSegs, Node.childs, Node.info, Node.data, hl]
          rw [List.cons_append, hi]
          have hrepl : lookupChild
              (replaceChild tc s (ch.insertAtSegs (r :: rs) c)) s
              = some (ch.insertAtSegs (r :: rs) c) :=
            lookupChild_replaceChild _ hname2 hl
          unfold Node.findSegs
          simp only [Node.childs, hrepl]
          exact ih ch q hrec

/-! ## Claims -/

/-- C7: `IsGzip` answers true exactly when the first three payload bytes
are `0x1F 0x8B 0x08`; in particular it answers false on every payload
shorter than three bytes (the empty payload included). -/
theorem isGzip_iff_header (d : List Nat) :
    (IsGzip d = true ↔ ∃ rest, d = 0x1F :: 0x8B :: 0x08 :: rest) ∧
    (d.length < 3 → IsGzip d = false) := by
  have hiff : IsGzip d = true ↔ ∃ rest, d = 0x1F :: 0x8B :: 0x08 :: rest := by
    match d with
    | [] => simp [IsGzip, gzipMemberHeader, List.isPrefixOf]
    | [a] => simp [IsGzip, gzipMemberHeader, List.isPrefixOf]
    | [a, b] => simp [IsGzip, gzipMemberHeader, List.isPrefixOf]
    | a :: b :: c :: rest =>
      constructor
      · intro hg
        have h1 : 0x1F = a ∧ 0x8B = b ∧ 0x08 = c := by
          simpa [IsGzip, gzipMemberHeader, List.isPrefixOf] using hg
        obtain ⟨ha, hb, hcc⟩ := h1
        subst ha
        subst hb
        subst hcc
        exact ⟨rest, rfl⟩
      · rintro ⟨r, hr⟩
        injection hr with h1 hr
        injection hr with h2 hr
        injection hr with h3 hr
        subst h1
        subst h2
        subst h3
        subst hr
        simp [IsGzip, gzipMemberHeader, List.isPrefixOf]
  refine ⟨hiff, fun hlen => ?_⟩
  cases hg : IsGzip d
  · rfl
  · obtain ⟨rest, hrest⟩ := hiff.mp hg
    subst hrest
    simp only [List.length_cons] at hlen
    omega

/-- Witness for C7: a payload with the header is gzip, a two-byte payload
is not. -/
theorem isGzip_iff_header_inst :
    IsGzip [0x1F, 0x8B, 0x08, 5] = true ∧ IsGzip [0x1F, 0x8B] = false :=
  ⟨(isGzip_iff_header [0x1F, 0x8B, 0x08, 5]).1.mpr ⟨[5], rfl⟩,
   (isGzip_iff_header [0x1F, 0x8B]).2 (by decide)⟩

/-- C10: ReadDir never mutates the mount.  In the state-passing reading
of the source (`ReadDirSt`) the mount coming out of the call is the mount
that went in — the sort acts on a fresh copy of the stored child-info
list — and the result component is the plain `ReadDir` answer. -/
theorem readDirSt_preserves_mount (m : Mount) (fs : PhysFS) (d : String) :
    (m.ReadDirSt fs d).2 = m ∧ (m.ReadDirSt fs d).1 = m.ReadDir fs d := by
  unfold Mount.ReadDirSt Mount.ReadDir
  cases h : m.mOpen d with
  | error e => by_cases he : isNotExist e <;> simp [he]
  | ok n => by_cases hd : n.info.dir <;> simp [hd]

/-- C5: a ReadDir that resolves in the virtual tree answers the child
entries sorted by name, and as a permutation of the stored (insertion
ordered) child list — whatever that insertion order was. -/
theorem readDir_sorted_by_name (m : Mount) (fs : PhysFS) (d : String)
    (n : Node) (l : List NodeInfo)
    (hopen : m.mOpen d = .ok n)
    (hrd : m.ReadDir fs d = .ok l) :
    l.Pairwise (fun a b => a.name ≤ b.name) ∧ l.Perm n.childInfos := by
  unfold Mount.ReadDir at hrd
  rw [hopen] at hrd
  by_cases hd : n.info.dir
  · have hl : sortByName n.childInfos = l := by
      simpa [hd] using hrd
    subst hl
    exact ⟨sortByName_sorted _, sortByName_perm _⟩
  · simp [hd] at hrd

/-- Witness for C5: inserting `z.txt` then `a.txt` lists
`[a.txt, z.txt]`. -/
theorem readDir_sorted_by_name_inst :
    List.Pairwise (fun a b : NodeInfo => a.name ≤ b.name) [infoA, infoZ] ∧
    List.Perm [infoA, infoZ]
      ((Node.node infoRootV []
        [newNode "/v/z.txt" infoZ [9, 9], newNode "/v/a.txt" infoA [7, 7]]).childInfos) :=
  readDir_sorted_by_name mZA fsEmpty "/v"
    (.node infoRootV []
      [newNode "/v/z.txt" infoZ [9, 9], newNode "/v/a.txt" infoA [7, 7]])
    [infoA, infoZ] rfl (by decide)

/-- C2: when the directory resolves in the virtual tree, ReadDir answers
exactly the tree children (sorted by name) and is independent of whatever
the physical disk holds — the virtual tree wins, nothing is merged; when
the lookup misses, ReadDir defers entirely to the physical directory
listing of the mapped physical path. -/
theorem readDir_virtual_wins_or_defers :
    (∀ (m : Mount) (fs fs2 : PhysFS) (d : String) (n : Node),
        m.mOpen d = .ok n → n.info.dir = true →
        m.ReadDir fs d = .ok (sortByName n.childInfos) ∧
        m.ReadDir fs d = m.ReadDir fs2 d)
    ∧ (∀ (m : Mount) (fs : PhysFS) (d : String),
        treeMiss m d = true →
        m.ReadDir fs d = ioutilReadDir fs (m.namePhysical d)) := by
  constructor
  · intro m fs fs2 d n hopen hdir
    unfold Mount.ReadDir
    rw [hopen]
    simp [hdir]
  · intro m fs d hmiss
    unfold treeMiss at hmiss
    unfold Mount.ReadDir
    cases h : m.mOpen d with
    | error e =>
      rw [h] at hmiss
      have hmiss2 : isNotExist e = true := hmiss
      simp [hmiss2]
    | ok n =>
      rw [h] at hmiss
      simp at hmiss

/-- Witness for C2: the populated virtual root lists only its virtual
children on a disk that additionally holds `/p/b.txt`, identically to its
listing on an empty disk. -/
theorem readDir_virtual_wins_or_defers_inst :
    mZA.ReadDir fsPhysB "/v" = .ok (sortByName ((Node.node infoRootV []
      [newNode "/v/z.txt" infoZ [9, 9], newNode "/v/a.txt" infoA [7, 7]]).childInfos)) ∧
    mZA.ReadDir fsPhysB "/v" = mZA.ReadDir fsEmpty "/v" :=
  readDir_virtual_wins_or_defers.1 mZA fsPhysB fsEmpty "/v"
    (.node infoRootV []
      [newNode "/v/z.txt" infoZ [9, 9], newNode "/v/a.txt" infoA [7, 7]])
    rfl rfl

/-- C6, counterexample: on a path absent from the tree whose mapped
physical entry is a regular file, ReadDir fails with the native physical
readdirent error, not with the read/is-a-file path error the claim
promises for every non-directory resolution. -/
theorem readDir_physical_file_error_cex :
    treeMiss mEmpty "/v/f.txt" = true ∧
    (osLstat fsPhysF (mEmpty.namePhysical "/v/f.txt")).map NodeInfo.dir = .ok false ∧
    mEmpty.ReadDir fsPhysF "/v/f.txt"
      = .error (.pathError "readdirent" "/p/f.txt" "not a directory") ∧
    mEmpty.ReadDir fsPhysF "/v/f.txt"
      ≠ .error (.pathError "read" "/v/f.txt" "is a file") := by
  refine ⟨by decide, by decide, by decide, by decide⟩

/-- C6, amended: ReadFile fails with the read/is-a-directory error on
every path whose resolved entry — virtual or physical — is a directory;
ReadDir fails with the read/is-a-file error on every path that resolves
to a non-directory in the virtual tree (a path resolving only physically
surfaces the native physical readdir error instead). -/
theorem wrongType_read_errors :
    (∀ (m : Mount) (fs : PhysFS) (p : String) (f : VFile),
        m.Open fs p = .ok f → (VFile.stat f).dir = true →
        m.ReadFile fs p = .error (.pathError "read" p "is a directory"))
    ∧ (∀ (m : Mount) (fs : PhysFS) (d : String) (n : Node),
        m.mOpen d = .ok n → n.info.dir = false →
        m.ReadDir fs d = .error (.pathError "read" d "is a file")) := by
  constructor
  · intro m fs p f hopen hdir
    unfold Mount.ReadFile
    rw [hopen]
    simp [hdir]
  · intro m fs d n hopen hdir
    unfold Mount.ReadDir
    rw [hopen]
    simp [hdir]

/-- Witness for the amended C6: reading the virtual root as a file is the
is-a-directory error, reading a virtual file as a directory is the
is-a-file error. -/
theorem wrongType_read_errors_inst :
    mZA.ReadFile fsEmpty "/v" = .error (.pathError "read" "/v" "is a directory") ∧
    mZA.ReadDir fsEmpty "/v/z.txt"
      = .error (.pathError "read" "/v/z.txt" "is a file") :=
  ⟨wrongType_read_errors.1 mZA fsEmpty "/v"
      (.virt (.node infoRootV []
        [newNode "/v/z.txt" infoZ [9, 9], newNode "/v/a.txt" infoA [7, 7]]))
      rfl rfl,
   wrongType_read_errors.2 mZA fsEmpty "/v/z.txt"
      (newNode "/v/z.txt" infoZ [9, 9]) rfl rfl⟩

/-- C4: the two population-time resolver outcomes for the parent
directory of an inserted file. When the resolver fails (a missing
intermediate ancestor — the never-added parent chain), AddFile returns
that insertion error; when the resolver answers a nil node without error
(the deliberately filtered parent), AddFile returns no error and leaves
the mount exactly as it was — no child is added. -/
theorem addFile_parent_policy :
    (∀ (m : Mount) (t : Node) (p : String) (fi : NodeInfo) (b : List Nat) (e : OSErr),
        m.tree = some t →
        t.findNodeSegs (segsOf (m.cleanDir p)) = .error e →
        m.AddFile p fi b = .error e)
    ∧ (∀ (m : Mount) (t : Node) (p : String) (fi : NodeInfo) (b : List Nat),
        m.tree = some t →
        t.findNodeSegs (segsOf (m.cleanDir p)) = .ok none →
        m.AddFile p fi b = .ok m) := by
  constructor
  · intro m t p fi b e ht hfind
    simp [Mount.AddFile, ht, hfind]
  · intro m t p fi b ht hfind
    simp [Mount.AddFile, ht, hfind]

/-- Witness for C4: inserting `/v/a/b/x.txt` into an empty tree fails
(the ancestor `a` of the parent directory was never added), while
inserting `/v/a/x.txt` — whose parent `a` is exactly the missing final
segment, the filtered-parent case — is accepted and changes nothing. -/
theorem addFile_parent_policy_inst :
    mEmpty.AddFile "/v/a/b/x.txt" infoX [1]
      = .error (.pathError "find" "a" "no such parent directory") ∧
    mEmpty.AddFile "/v/a/x.txt" infoX [1] = .ok mEmpty :=
  ⟨addFile_parent_policy.1 mEmpty rootEmpty "/v/a/b/x.txt" infoX [1]
      (.pathError "find" "a" "no such parent directory") rfl rfl,
   addFile_parent_policy.2 mEmpty rootEmpty "/v/a/x.txt" infoX [1] rfl rfl⟩

/-- C1: round-trip fidelity of AddFile and ReadFile.  For a clean virtual
path under the mount root whose parent directory resolves in the tree
(so the insertion really attaches the node), reading the path back on
the populated mount returns exactly the bytes that were added, whatever
the physical disk holds. -/
theorem addFile_readFile_roundtrip (m m2 : Mount) (t q : Node) (p : String)
    (fi : NodeInfo) (b : List Nat) (fs : PhysFS)
    (ht : m.tree = some t)
    (hfi : fi.dir = false)
    (hclean : pathClean p = p)
    (hroot : m.vroot ≠ p)
    (hsegs : segsOf (trimPfx p m.vroot) = segsOf (m.cleanDir p) ++ [baseName p])
    (hfind : t.findNodeSegs (segsOf (m.cleanDir p)) = .ok (some q))
    (hadd : m.AddFile p fi b = .ok m2) :
    m2.ReadFile fs p = .ok b := by
  have hm2 : m2 = { m with tree := some (t.insertAtSegs (segsOf (m.cleanDir p))
      (newNode p fi b)) } := by
    simp only [Mount.AddFile, ht, hfind] at hadd
    exact (Except.ok.inj hadd).symm
  subst hm2
  have hfound : (t.insertAtSegs (segsOf (m.cleanDir p)) (newNode p fi b)).findSegs
      (segsOf (trimPfx p m.vroot)) = .ok (newNode p fi b) := by
    rw [hsegs]
    exact findSegs_insertAtSegs (newNode p fi b) (segsOf (m.cleanDir p)) t q hfind
  have hopen : Mount.mOpen
      { m with tree := some (t.insertAtSegs (segsOf (m.cleanDir p)) (newNode p fi b)) } p
      = .ok (newNode p fi b) := by
    unfold Mount.mOpen
    simp only [hclean]
    rw [if_neg hroot]
    exact hfound
  unfold Mount.ReadFile Mount.Open
  rw [hopen]
  simp [VFile.stat, VFile.readAll, newNode, Node.info, Node.data, hfi]

/-- Witness for C1: adding `/v/x.txt` with payload `[9, 8]` to the empty
mount and reading it back returns `[9, 8]`. -/
theorem addFile_readFile_roundtrip_inst :
    mX.ReadFile fsEmpty "/v/x.txt" = .ok [9, 8] :=
  addFile_readFile_roundtrip mEmpty mX rootEmpty rootEmpty "/v/x.txt" infoX [9, 8]
    fsEmpty rfl rfl (by decide) (by decide) (by decide) rfl rfl

/-- Unpack the dispatch-level not-found test. -/
theorem treeMiss_elim {m : Mount} {name : String} (h : treeMiss m name = true) :
    ∃ e, m.mOpen name = .error e ∧ isNotExist e = true := by
  unfold treeMiss at h
  cases hm : m.mOpen name with
  | error e =>
    rw [hm] at h
    exact ⟨e, rfl, h⟩
  | ok n =>
    rw [hm] at h
    simp at h

/-- Value of the physical probe-and-open when the mapped path is absent:
the lstat-labelled not-exist error. -/
theorem openPhysical_eq_none {m : Mount} {fs : PhysFS} {name : String}
    (hl : fs.lookup (m.namePhysical name) = none) :
    m.openPhysical fs name = .error (.notExist "lstat" (m.namePhysical name)) := by
  unfold Mount.openPhysical
  simp [osLstat, osOpen, hl, isNotExist]

/-- Value of the physical probe-and-open when the mapped path exists: the
open physical handle. -/
theorem openPhysical_eq_some {m : Mount} {fs : PhysFS} {name : String}
    {i : NodeInfo} {d : List Nat}
    (hl : fs.lookup (m.namePhysical name) = some (i, d)) :
    m.openPhysical fs name = .ok (.phys ⟨m.namePhysical name, i, d⟩) := by
  unfold Mount.openPhysical
  simp [osLstat, osOpen, hl, isNotExist, Except.map]

/-- C3, counterexample: on a path absent from the tree whose mapped
physical path does not exist either, `Mount.Open` answers the not-exist
error of its `os.Lstat` probe (operation label `lstat`) while directly
invoking the physical `os.Open` answers a not-exist error labelled
`open` — the two results are not identical. -/
theorem open_fallback_not_identical_cex :
    treeMiss mEmpty "/v/x" = true ∧
    mEmpty.Open fsEmpty "/v/x" = .error (.notExist "lstat" "/p/x") ∧
    (osOpen fsEmpty (mEmpty.namePhysical "/v/x")).map VFile.phys
      = .error (.notExist "open" "/p/x") ∧
    mEmpty.Open fsEmpty "/v/x"
      ≠ (osOpen fsEmpty (mEmpty.namePhysical "/v/x")).map VFile.phys := by
  have h1 : mEmpty.Open fsEmpty "/v/x" = .error (.notExist "lstat" "/p/x") := rfl
  have h2 : (osOpen fsEmpty (mEmpty.namePhysical "/v/x")).map VFile.phys
      = .error (.notExist "open" "/p/x") := rfl
  refine ⟨by decide, h1, h2, fun h => ?_⟩
  rw [h1, h2] at h
  exact absurd (Except.error.inj h) (by decide)

/-- C3, amended: for a path absent from the virtual tree, Lstat, Stat and
ReadDir delegate literally to the physical primitive on the mapped path
(identical results); Open and ReadFile produce identical values whenever
the physical path exists (for ReadFile: exists as a regular file), and in
every remaining case an error of the same classification and message as
the physical primitive, differing at most in the operation and path
labels recorded inside the error. -/
theorem fallback_matches_physical_up_to_labels :
    (∀ (m : Mount) (fs : PhysFS) (name : String),
        treeMiss m name = true →
        m.Lstat fs name = osLstat fs (m.namePhysical name)) ∧
    (∀ (m : Mount) (fs : PhysFS) (name : String),
        treeMiss m name = true →
        m.Stat fs name = osStat fs (m.namePhysical name)) ∧
    (∀ (m : Mount) (fs : PhysFS) (name : String),
        treeMiss m name = true →
        m.ReadDir fs name = ioutilReadDir fs (m.namePhysical name)) ∧
    (∀ (m : Mount) (fs : PhysFS) (name : String),
        treeMiss m name = true →
        resAgree (m.Open fs name) ((osOpen fs (m.namePhysical name)).map VFile.phys) ∧
        (∀ i d, fs.lookup (m.namePhysical name) = some (i, d) →
          m.Open fs name = (osOpen fs (m.namePhysical name)).map VFile.phys)) ∧
    (∀ (m : Mount) (fs : PhysFS) (name : String),
        treeMiss m name = true →
        resAgree (m.ReadFile fs name) (ioutilReadFile fs (m.namePhysical name))) := by
  have hopen : ∀ (m : Mount) (fs : PhysFS) (name : String),
      treeMiss m name = true → m.Open fs name = m.openPhysical fs name := by
    intro m fs name h
    obtain ⟨e, hm, he⟩ := treeMiss_elim h
    unfold Mount.Open
    rw [hm]
    simp [he]
  refine ⟨?_, ?_, ?_, ?_, ?_⟩
  · intro m fs name h
    obtain ⟨e, hm, he⟩ := treeMiss_elim h
    unfold Mount.Lstat
    rw [hm]
    simp [he]
  · intro m fs name h
    obtain ⟨e, hm, he⟩ := treeMiss_elim h
    unfold Mount.Stat
    rw [hm]
    simp [he]
  · intro m fs name h
    obtain ⟨e, hm, he⟩ := treeMiss_elim h
    unfold Mount.ReadDir
    rw [hm]
    simp [he]
  · intro m fs name h
    rw [hopen m fs name h]
    cases hl : fs.lookup (m.namePhysical name) with
    | none =>
      constructor
      · rw [openPhysical_eq_none hl]
        have hr : osOpen fs (m.namePhysical name)
            = .error (.notExist "open" (m.namePhysical name)) := by
          simp [osOpen, hl]
        rw [hr]
        rfl
      · intro i d hc
        exact absurd hc (by simp)
    | some v =>
      obtain ⟨i, d⟩ := v
      have hr : osOpen fs (m.namePhysical name)
          = .ok ⟨m.namePhysical name, i, d⟩ := by
        simp [osOpen, hl]
      constructor
      · rw [openPhysical_eq_some hl, hr]
        rfl
      · intro i2 d2 _
        rw [openPhysical_eq_some hl, hr]
        rfl
  · intro m fs name h
    unfold Mount.ReadFile
    rw [hopen m fs name h]
    cases hl : fs.lookup (m.namePhysical name) with
    | none =>
      rw [openPhysical_eq_none hl]
      have hr : ioutilReadFile fs (m.namePhysical name)
          = .error (.notExist "open" (m.namePhysical name)) := by
        simp [ioutilReadFile, hl]
      rw [hr]
      rfl
    | some v =>
      obtain ⟨i, d⟩ := v
      rw [openPhysical_eq_some hl]
      by_cases hd : i.dir
      · have hr : ioutilReadFile fs (m.namePhysical name)
            = .error (.pathError "read" (m.namePhysical name) "is a directory") := by
          simp [ioutilReadFile, hl, hd]
        rw [hr]
        simp [isNotExist, VFile.stat, VFile.readAll, hd, resAgree, errAgree]
      · have hr : ioutilReadFile fs (m.namePhysical name) = .ok d := by
          simp [ioutilReadFile, hl, hd]
        rw [hr]
        simp [isNotExist, VFile.stat, VFile.readAll, hd, resAgree, errAgree]

/-- Witness for the amended C3 at a physically existing file: Lstat on a
tree miss equals the physical lstat, and ReadFile agrees with the
physical read. -/
theorem fallback_matches_physical_up_to_labels_inst :
    mEmpty.Lstat fsPhysF "/v/f.txt" = osLstat fsPhysF (mEmpty.namePhysical "/v/f.txt") ∧
    resAgree (mEmpty.ReadFile fsPhysF "/v/f.txt")
      (ioutilReadFile fsPhysF (mEmpty.namePhysical "/v/f.txt")) :=
  ⟨fallback_matches_physical_up_to_labels.1 mEmpty fsPhysF "/v/f.txt" (by decide),
   fallback_matches_physical_up_to_labels.2.2.2.2 mEmpty fsPhysF "/v/f.txt" (by decide)⟩

/-- The file pass emits no add-directory statement: every chunk of a
successful `emitFiles` run is a file statement, a byte literal or literal
text. -/
theorem emitFiles_no_dirStmt (mp pp : String) (env : GenEnv) :
    ∀ (files : List FileEntry) (l : List Chunk),
      emitFiles mp pp env files = .ok l → ∀ c ∈ l, c.isDirStmt = false := by
  intro files
  induction files with
  | nil =>
    intro l h c hc
    have hl : ([] : List Chunk) = l := Except.ok.inj h
    rw [← hl] at hc
    exact absurd hc (by simp)
  | cons f rest ih =>
    intro l h c hc
    obtain ⟨fname, info, data⟩ := f
    have h2 : (match env.openErr fname with
        | some e => (.error e : Except OSErr (List Chunk))
        | none =>
          match env.renderFileErr (joinPath2 mp (trimPfx fname pp)) info with
          | some e => .error e
          | none =>
            match (if 0 < info.size then
                match env.convertErr fname with
                | some e => (.error e : Except OSErr (List Chunk))
                | none => .ok [Chunk.fileBytes data]
              else .ok []) with
            | .error e => .error e
            | .ok bcks =>
              match emitFiles mp pp env rest with
              | .error e => .error e
              | .ok more => .ok (Chunk.fileStmt (joinPath2 mp (trimPfx fname pp)) info
                  :: bcks ++ (Chunk.text "\x22))\n" :: more))) = .ok l := h
    cases ho : env.openErr fname with
    | some e =>
      rw [ho] at h2
      exact absurd h2 (by simp)
    | none =>
      rw [ho] at h2
      cases hrf : env.renderFileErr (joinPath2 mp (trimPfx fname pp)) info with
      | some e =>
        rw [hrf] at h2
        exact absurd h2 (by simp)
      | none =>
        rw [hrf] at h2
        by_cases hs : 0 < info.size
        · rw [if_pos hs] at h2
          cases hcv : env.convertErr fname with
          | some e =>
            rw [hcv] at h2
            exact absurd h2 (by simp)
          | none =>
            rw [hcv] at h2
            cases hrec : emitFiles mp pp env rest with
            | error e =>
              rw [hrec] at h2
              exact absurd h2 (by simp)
            | ok more =>
              rw [hrec] at h2
              have hl : (Chunk.fileStmt (joinPath2 mp (trimPfx fname pp)) info
                  :: ([Chunk.fileBytes data] ++ (Chunk.text "\x22))\n" :: more))) = l :=
                Except.ok.inj h2
              rw [← hl] at hc
              simp only [List.singleton_append, List.mem_cons] at hc
              rcases hc with rfl | rfl | rfl | hc
              · rfl
              · rfl
              · rfl
              · exact ih more hrec c hc
        · rw [if_neg hs] at h2
          cases hrec : emitFiles mp pp env rest with
          | error e =>
            rw [hrec] at h2
            exact absurd h2 (by simp)
          | ok more =>
            rw [hrec] at h2
            have hl : (Chunk.fileStmt (joinPath2 mp (trimPfx fname pp)) info
                :: (([] : List Chunk) ++ (Chunk.text "\x22))\n" :: more))) = l :=
              Except.ok.inj h2
            rw [← hl] at hc
            simp only [List.nil_append, List.mem_cons] at hc
            rcases hc with rfl | rfl | hc
            · rfl
            · rfl
            · exact ih more hrec c hc

/-- Filters over the mapped directory statements. -/
theorem filter_dirStmt_map_dirs (dirs : List DirEntry) :
    (dirs.map (fun d => Chunk.dirStmt d.1 d.2)).filter Chunk.isDirStmt
      = dirs.map (fun d => Chunk.dirStmt d.1 d.2) ∧
    (dirs.map (fun d => Chunk.dirStmt d.1 d.2)).filter Chunk.isFileStmt = [] ∧
    (dirs.map (fun d => Chunk.dirStmt d.1 d.2)).filter Chunk.isStmt
      = dirs.map (fun d => Chunk.dirStmt d.1 d.2) := by
  induction dirs with
  | nil => simp
  | cons d ds ih =>
    refine ⟨?_, ?_, ?_⟩ <;>
      simp [List.filter, Chunk.isDirStmt, Chunk.isFileStmt, Chunk.isStmt,
        ih.1, ih.2.1, ih.2.2]

/-- Filters over a chunk list free of add-directory statements. -/
theorem filter_no_dirStmt {l : List Chunk} (h : ∀ c ∈ l, c.isDirStmt = false) :
    l.filter Chunk.isDirStmt = [] ∧ l.filter Chunk.isStmt = l.filter Chunk.isFileStmt := by
  induction l with
  | nil => simp
  | cons c cs ih =>
    have hc : c.isDirStmt = false := h c (List.mem_cons_self c cs)
    have hrest : ∀ x ∈ cs, x.isDirStmt = false :=
      fun x hx => h x (List.mem_cons_of_mem _ hx)
    obtain ⟨ih1, ih2⟩ := ih hrest
    constructor
    · simp [List.filter, hc, ih1]
    · cases hf : c.isFileStmt <;>
        simp [List.filter, Chunk.isStmt, hc, hf, ih2]

/-- C8: the Binary compiler is fail-fast and never yields partial
output.  An invalid exclusion-rule set aborts with its validation error
whatever the tree and oracles (validation runs before any walk); a
preamble-template error aborts next; a formatter that fails forces the
whole compile to fail; and every successful compile is exactly a
formatter run over the raw buffer — no unformatted or partial source is
ever returned. -/
theorem binary_fail_fast :
    (∀ (env : GenEnv) (mp pp : String) (sk : Excludes) (root : PTree) (e : OSErr),
        sk.validateErr = some e → Binary env mp pp sk root = .error e) ∧
    (∀ (env : GenEnv) (mp pp : String) (sk : Excludes) (root : PTree) (e : OSErr),
        sk.validateErr = none → env.preambleErr mp = some e →
        Binary env mp pp sk root = .error e) ∧
    (∀ (env : GenEnv) (mp pp : String) (sk : Excludes) (root : PTree) (e : OSErr),
        (∀ b, env.fmtSource b = .error e) →
        ∃ e2, Binary env mp pp sk root = .error e2) ∧
    (∀ (env : GenEnv) (mp pp : String) (sk : Excludes) (root : PTree) (out : List Chunk),
        Binary env mp pp sk root = .ok out →
        ∃ raw, BinaryRaw env mp pp sk root = .ok raw ∧ env.fmtSource raw = .ok out) := by
  refine ⟨?_, ?_, ?_, ?_⟩
  · intro env mp pp sk root e hv
    simp [Binary, BinaryRaw, hv]
  · intro env mp pp sk root e hv hp
    simp [Binary, BinaryRaw, hv, hp]
  · intro env mp pp sk root e hf
    unfold Binary
    cases hr : BinaryRaw env mp pp sk root with
    | error e2 => exact ⟨e2, rfl⟩
    | ok buf => exact ⟨e, hf buf⟩
  · intro env mp pp sk root out hok
    unfold Binary at hok
    cases hr : BinaryRaw env mp pp sk root with
    | error e2 =>
      rw [hr] at hok
      exact absurd hok (by simp)
    | ok raw =>
      rw [hr] at hok
      exact ⟨raw, rfl, hok⟩

/-- Witness for C8: an invalid rule set aborts the concrete compile with
its validation error, and the concrete successful compile factors
through the formatter. -/
theorem binary_fail_fast_inst :
    Binary envOK "/app" "/src" skBad ptreeW
      = .error (.pathError "validate" "" "invalid pattern") ∧
    ∃ raw, BinaryRaw envOK "/app" "/src" skNone ptreeW = .ok raw ∧
      envOK.fmtSource raw = .ok rawW :=
  ⟨binary_fail_fast.1 envOK "/app" "/src" skBad ptreeW
      (.pathError "validate" "" "invalid pattern") rfl,
   binary_fail_fast.2.2.2 envOK "/app" "/src" skNone ptreeW rawW (by decide)⟩

/-- C9: in every raw buffer the compiler produces, all add-directory
statements (emitted during the walk, root excluded) precede all add-file
statements (deferred to the second pass): the statement subsequence of
the buffer is its directory statements followed by its file statements. -/
theorem binary_dirs_before_files (env : GenEnv) (mp pp : String) (sk : Excludes)
    (root : PTree) (raw : List Chunk)
    (hraw : BinaryRaw env mp pp sk root = .ok raw) :
    raw.filter Chunk.isStmt = raw.filter Chunk.isDirStmt ++ raw.filter Chunk.isFileStmt := by
  revert hraw
  unfold BinaryRaw
  cases hv : sk.validateErr with
  | some e =>
    intro h
    exact absurd h (by simp)
  | none =>
    cases hp : env.preambleErr mp with
    | some e =>
      intro h
      exact absurd h (by simp)
    | none =>
      cases hw : walkP mp pp sk env root with
      | error e =>
        intro h
        exact absurd h (by simp)
      | ok pr =>
        obtain ⟨dirs, files⟩ := pr
        intro h
        have h2 : (match emitFiles mp pp env files with
            | .error e => (.error e : Except OSErr (List Chunk))
            | .ok fileChunks =>
              .ok ([Chunk.preamble mp, Chunk.text "\n// Adding directories into VFS"]
                ++ dirs.map (fun d : DirEntry => Chunk.dirStmt d.1 d.2)
                ++ (Chunk.text "\n// Adding files into VFS" :: fileChunks)
                ++ [Chunk.text "\x7d"])) = .ok raw := h
        cases hef : emitFiles mp pp env files with
        | error e =>
          rw [hef] at h2
          exact absurd h2 (by simp)
        | ok fcs =>
          rw [hef] at h2
          have hl : ([Chunk.preamble mp, Chunk.text "\n// Adding directories into VFS"]
                ++ dirs.map (fun d => Chunk.dirStmt d.1 d.2)
                ++ (Chunk.text "\n// Adding files into VFS" :: fcs)
                ++ [Chunk.text "\x7d"]) = raw := Except.ok.inj h2
          obtain ⟨hd1, hd2, hd3⟩ := filter_dirStmt_map_dirs dirs
          obtain ⟨hf1, hf2⟩ :=
            filter_no_dirStmt (emitFiles_no_dirStmt mp pp env files fcs hef)
          rw [← hl]
          simp only [List.filter_append, List.filter_cons, List.filter_nil,
            Chunk.isStmt, Chunk.isDirStmt, Chunk.isFileStmt, Bool.or_self,
            Bool.false_or, cond_false, cond_true]
          simp [hd1, hd2, hd3, hf1, hf2, Chunk.isStmt, Chunk.isDirStmt, Chunk.isFileStmt]

/-- Witness for C9 at the concrete compile of `ptreeW`. -/
theorem binary_dirs_before_files_inst :
    rawW.filter Chunk.isStmt
      = rawW.filter Chunk.isDirStmt ++ rawW.filter Chunk.isFileStmt :=
  binary_dirs_before_files envOK "/app" "/src" skNone ptreeW rawW (by decide)

end Vfs
